import Mathlib

/-!
Verification of the hybrid-pagerank attribution engine.

Shallow embedding of the engine's two source files:
  * src/pagerank-personaliization.ts — a personalized power-iteration
    PageRank solver over a weighted directed (multi)graph;
  * src/index.ts — the AttributionEngine: weight normalization, forward and
    reverse graph construction, outcome personalization, hybrid combination
    and reward normalization.

Conventions of the embedding:
  * JavaScript numbers are modelled as rationals (exact arithmetic).
  * JavaScript objects used as string-keyed records are modelled as
    insertion-ordered association lists (type Dict below).
  * Fallible operations (graphology addNode/addEdge, solver errors) are
    modelled with Except.
  * JavaScript truthiness on numbers (x || d) treats 0 as falsy; this is
    modelled explicitly by jsOr / jsOrOpt, distinct from the nullish
    coalescing operator (x ?? d) which is Option.getD.
-/

/-! ## Definitions: the shallow embedding of the source -/

/-- Dict models a JavaScript object used as a string-to-number record:
an insertion-ordered association list with unique keys maintained by
dictSet. -/
abbrev Dict : Type := List (String × ℚ)

/-- Lookup of a key in a record, first match (keys are unique). -/
def dictGet : Dict → String → Option ℚ
  | [], _ => none
  | (a, b) :: t, k => if a = k then some b else dictGet t k

/-- JavaScript property assignment: overwrite in place if the key exists,
otherwise append (insertion order preserved). -/
def dictSet : Dict → String → ℚ → Dict
  | [], k, v => [(k, v)]
  | (a, b) :: t, k, v => if a = k then (a, v) :: t else (a, b) :: dictSet t k v

/-- Accumulation loop m[k] = (m[k] || 0) + v over a list of key-value
pairs, as performed by the Map/record accumulators of the source. -/
def dictAccum (l : List (String × ℚ)) (m0 : Dict) : Dict :=
  l.foldl (fun m p => dictSet m p.1 ((dictGet m p.1).getD 0 + p.2)) m0

/-- Sum of the values of a record, in the order of Object.values. -/
def valuesSum (m : Dict) : ℚ :=
  (m.map (fun p => p.2)).sum

/-- One weighted directed edge of a graphology graph, as seen by the
solver's WeightedNeighborhoodIndex.  The stored edge attributes other than
the weight (the type attribute) are never read by the solver and are
omitted. -/
structure WEdge where
  src : String
  dst : String
  w : ℚ
deriving DecidableEq

/-- A graphology directed multigraph as the solver sees it: the node key
list (insertion order, unique by construction) and the edge records. -/
structure WGraph where
  nodes : List String
  edges : List WEdge
deriving DecidableEq

/-- Weighted out-degree of a node: the sum of the weights of its outgoing
edges (index.outDegrees in the source). -/
def outDeg (g : WGraph) (i : String) : ℚ :=
  ((g.edges.filter (fun e => decide (e.src = i))).map (fun e => e.w)).sum

/-- Nodes of weighted out-degree zero, indexed before iterating
(danglingNodes in the source). -/
def danglingNodes (g : WGraph) : List String :=
  g.nodes.filter (fun i => decide (outDeg g i = 0))

/-- Total rank mass sitting on dangling nodes for a rank vector x. -/
def danglingMass (g : WGraph) (x : String → ℚ) : ℚ :=
  ((danglingNodes g).map x).sum

/-- One x[neighbor] += alpha * xLast[i] * (weight / outDegree(i)) update of
the inner flow loop.  The source divides each edge weight by the weighted
out-degree of its source once, before iterating; recomputing the quotient
here is value-equal since the quotient is constant across iterations. -/
def flowUpdate (g : WGraph) (alpha : ℚ) (xLast : String → ℚ)
    (x : String → ℚ) (e : WEdge) : String → ℚ :=
  Function.update x e.dst (x e.dst + alpha * xLast e.src * (e.w / outDeg g e.src))

/-- One pass of the power iteration.  The source writes the fresh vector x
(initialized to zeroes) by looping over the nodes i, flowing rank along the
outgoing edges of i, and then adding the dangling and random-jump mass at
position i.  All writes are commutative additions to distinct array cells,
so the pass is modelled as: fold all edge flows, then add the dangling and
jump term at every node position. -/
def pagerankStep (g : WGraph) (alpha : ℚ) (p xLast : String → ℚ) :
    String → ℚ :=
  let dangleSum := alpha * danglingMass g xLast
  let flowed := g.edges.foldl (flowUpdate g alpha xLast) (fun _ => 0)
  fun v => flowed v + (if v ∈ g.nodes then dangleSum * p v + (1 - alpha) * p v else 0)

/-- Errors surfaced by the engine: the two solver failures and the two
graphology construction failures (addNode on an existing key, addEdge with
an endpoint that is not in the graph). -/
inductive EvalErr where
  | zeroPersonalizationSum
  | nonConvergence
  | duplicateNode (id : String)
  | missingNode (id : String)
deriving DecidableEq

/-- Solver options, with the defaults of the source (resolveDefaults with
DEFAULTS).  The getEdgeWeight and nodePagerankAttribute options select
attribute names and are fixed by the embedding. -/
structure PageRankOptions where
  personalization : Option Dict := none
  alpha : ℚ := 85 / 100
  maxIterations : Nat := 100
  tolerance : ℚ := 1 / 1000000
deriving DecidableEq

/-- The while loop of the solver: at most maxIterations passes; after each
pass, converged when the L1 distance between consecutive vectors is below
N * tolerance; throws when the iteration budget is exhausted. -/
def pagerankLoop (g : WGraph) (alpha tol : ℚ) (p : String → ℚ) :
    Nat → (String → ℚ) → Except EvalErr (String → ℚ)
  | 0, _ => .error .nonConvergence
  | fuel + 1, x =>
    let x' := pagerankStep g alpha p x
    let err := (g.nodes.map (fun v => |x' v - x v|)).sum
    if err < (g.nodes.length : ℚ) * tol then .ok x'
    else pagerankLoop g alpha tol p fuel x'

/-- index.collect: the final vector as a node-key-keyed record. -/
def collect (g : WGraph) (x : String → ℚ) : Dict :=
  g.nodes.map (fun k => (k, x k))

/-- The iteration phase of the solver, run from the restart distribution p
(the source initializes x to p). -/
def pagerankWithP (g : WGraph) (o : PageRankOptions) (p : String → ℚ) :
    Except EvalErr Dict :=
  (pagerankLoop g o.alpha o.tolerance p o.maxIterations p).map (collect g)

/-- abstractPagerank: empty graph gives an empty result; an explicit
personalization vector is summed over the graph's node keys (absent keys
contribute 0 via the  personalization[nodeKey] || 0  lookup), rejected if
that sum is exactly zero, and otherwise normalized by its own sum; without
a personalization vector the restart distribution is uniform 1/N. -/
def pagerank (g : WGraph) (o : PageRankOptions) : Except EvalErr Dict :=
  if g.nodes.length = 0 then .ok []
  else
    match o.personalization with
    | some pers =>
      let s := (g.nodes.map (fun k => (dictGet pers k).getD 0)).sum
      if s = 0 then .error .zeroPersonalizationSum
      else pagerankWithP g o (fun k => (dictGet pers k).getD 0 / s)
    | none => pagerankWithP g o (fun _ => 1 / (g.nodes.length : ℚ))

/-- Node types of the data model. -/
inductive NodeType where
  | agent
  | artifact
  | outcome
deriving DecidableEq

/-- A node.  The timestamp, context and metadata fields are never read by
the engine and are omitted. -/
structure Node where
  id : String
  type : NodeType
  weight : Option ℚ := none
deriving DecidableEq

/-- An edge.  The source names the endpoint fields from and to; from is a
reserved word in Lean, so they are named src and dst here.  The timestamp,
context and metadata fields are never read by the engine and are
omitted. -/
structure Edge where
  src : String
  dst : String
  type : String
  weight : Option ℚ := none
  confidence : Option ℚ := none
deriving DecidableEq

/-- Normalization modes for raw edge weights. -/
inductive NormMode where
  | none
  | perTypeSum
  | perSourceTypeSum
  | perTypeMax
deriving DecidableEq

/-- Normalization configuration.  The source's transform field is the enum
string none or log1p, applied to the raw weight as
  transform === "log1p" ? Math.log1p(Math.max(0, w)) : w.
log1p is transcendental, so the embedding is generic over the transform as
a function on rationals: id embeds transform none, and any statement proved
for every transform function covers log1p as well. -/
structure NormConfig where
  edgeWeight : NormMode
  transform : ℚ → ℚ
  epsilon : ℚ

/-- Weighting configuration: the per-edge-type multipliers, the mandatory
per-node-type multipliers, and the optional per-node-id multipliers. -/
structure WeightsConfig where
  edges : Dict
  nodesByType : NodeType → ℚ
  nodesById : Dict

/-- Engine configuration after the constructor's deep merge over the
defaults. -/
structure Config where
  alpha : ℚ
  damping : ℚ
  normalization : NormConfig
  weights : WeightsConfig

/-- JavaScript  x || d  on numbers: 0 is falsy and yields the default. -/
def jsOr (x d : ℚ) : ℚ :=
  if x = 0 then d else x

/-- JavaScript  lookup || d  where the lookup may be undefined: both a
missing key and a stored 0 yield the default. -/
def jsOrOpt (x : Option ℚ) (d : ℚ) : ℚ :=
  match x with
  | some v => jsOr v d
  | none => d

/-- nodeMultiplier of the source:
  typeMultiplier * idMultiplier * nodeWeight
with  nodesByType[n.type] || 1,  nodesById?.[n.id] || 1  and
n.weight ?? 1; a missing node (dangling edge endpoint) contributes 1. -/
def nodeMultiplier (cfg : Config) : Option Node → ℚ
  | none => 1
  | some n =>
    jsOr (cfg.weights.nodesByType n.type) 1
      * jsOrOpt (dictGet cfg.weights.nodesById n.id) 1
      * n.weight.getD 1

/-- The nodeMap built with  new Map(nodes.map(n => [n.id, n])): on
duplicate ids the last entry wins. -/
def nodeMap (ns : List Node) (id : String) : Option Node :=
  ns.foldl (fun acc n => if n.id = id then some n else acc) none

/-- computeNormalizedEdgeValues: transform every raw weight (default 1),
then scale per the configured mode.  The Map accumulators of the source
are modelled by dictAccum / dictSet folds over the (edge, transformed
value) pairs in edge order. -/
def computeNormalizedEdgeValues (cfg : Config) (edges : List Edge) : List ℚ :=
  let mode := cfg.normalization.edgeWeight
  let epsilon := cfg.normalization.epsilon
  let rawVals := edges.map (fun e => cfg.normalization.transform (e.weight.getD 1))
  match mode with
  | .none => rawVals
  | .perTypeSum =>
    let pairs := edges.zip rawVals
    let byTypeSum := dictAccum (pairs.map (fun p => (p.1.type, p.2))) []
    pairs.map (fun p => p.2 / ((dictGet byTypeSum p.1.type).getD 0 + epsilon))
  | .perTypeMax =>
    let pairs := edges.zip rawVals
    let byTypeMax :=
      pairs.foldl (fun m p => dictSet m p.1.type (max ((dictGet m p.1.type).getD 0) p.2)) []
    pairs.map (fun p => p.2 / ((dictGet byTypeMax p.1.type).getD 0 + epsilon))
  | .perSourceTypeSum =>
    let pairs := edges.zip rawVals
    let bySourceTypeSum :=
      dictAccum (pairs.map (fun p => (p.1.src ++ "__" ++ p.1.type, p.2))) []
    pairs.map (fun p =>
      p.2 / ((dictGet bySourceTypeSum (p.1.src ++ "__" ++ p.1.type)).getD 0 + epsilon))

/-- The effective weight stored on the i-th built graph edge:
  (normalizedEdgeValues[i] ?? (edge.weight ?? 1))
    * (edge.confidence ?? 1)
    * (weights.edges[edge.type] || 1)
    * nodeMultiplier(fromNode) * nodeMultiplier(toNode).
Both buildGraph and buildReverseGraph compute exactly this product inline;
it is factored out here. -/
def effWeight (cfg : Config) (ns : List Node) (normVals : List ℚ)
    (i : Nat) (e : Edge) : ℚ :=
  ((normVals.get? i).getD (e.weight.getD 1))
    * e.confidence.getD 1
    * jsOrOpt (dictGet cfg.weights.edges e.type) 1
    * nodeMultiplier cfg (nodeMap ns e.src)
    * nodeMultiplier cfg (nodeMap ns e.dst)

/-- graphology graph.addNode: throws if the key is already present,
otherwise appends the node key. -/
def addNodesE (ns : List Node) : Except EvalErr (List String) :=
  ns.foldlM
    (fun acc n =>
      if n.id ∈ acc then .error (.duplicateNode n.id) else .ok (acc ++ [n.id]))
    []

/-- graphology graph.addEdge: throws if the source or the target key is not
in the graph, otherwise appends the edge record. -/
def addEdgeE (ids : List String) (acc : List WEdge) (s d : String) (w : ℚ) :
    Except EvalErr (List WEdge) :=
  if s ∉ ids then .error (.missingNode s)
  else if d ∉ ids then .error (.missingNode d)
  else .ok (acc ++ [⟨s, d, w⟩])

/-- buildGraph: add every node, then for every input edge compute the
effective weight and add the arc (e.from -> e.to).  buildGraph recomputes
the normalized edge values itself from the configuration. -/
def buildGraphE (cfg : Config) (ns : List Node) (es : List Edge) :
    Except EvalErr WGraph := do
  let ids ← addNodesE ns
  let normVals := computeNormalizedEdgeValues cfg es
  let edges ← es.enum.foldlM
    (fun acc p => addEdgeE ids acc p.2.src p.2.dst (effWeight cfg ns normVals p.1 p.2))
    []
  return ⟨ids, edges⟩

/-- buildReverseGraph: add every node, then for every input edge compute
the same effective weight and add the arc reversed (e.to -> e.from) when
the source node exists and is not an outcome, unreversed (e.from -> e.to)
otherwise (source node of type outcome, or source node missing). -/
def buildReverseGraphE (cfg : Config) (ns : List Node) (es : List Edge)
    (normVals : List ℚ) : Except EvalErr WGraph := do
  let ids ← addNodesE ns
  let edges ← es.enum.foldlM
    (fun acc p =>
      let w := effWeight cfg ns normVals p.1 p.2
      match nodeMap ns p.2.src with
      | some fn =>
        if fn.type = NodeType.outcome then addEdgeE ids acc p.2.src p.2.dst w
        else addEdgeE ids acc p.2.dst p.2.src w
      | none => addEdgeE ids acc p.2.src p.2.dst w)
    []
  return ⟨ids, edges⟩

/-- getOutcomePersonalization: with no outcome nodes return the empty
record; otherwise accumulate, for every edge whose source node exists and
has type outcome,
  personalization[e.from] +=
    (normalizedEdgeValues[i] ?? (e.weight ?? 1)) * (e.confidence ?? 1)
      * (weights.edges[e.type] || 1) * nodeMultiplier(fromNode);
if no edge qualified, fall back to assigning nodeMultiplier(node) for every
outcome node. -/
def getOutcomePersonalization (cfg : Config) (ns : List Node) (es : List Edge)
    (normVals : List ℚ) : Dict :=
  let outcomeNodes := ns.filter (fun n => decide (n.type = NodeType.outcome))
  if outcomeNodes.isEmpty then []
  else
    let pers := es.enum.foldl
      (fun m p =>
        match nodeMap ns p.2.src with
        | some fn =>
          if fn.type = NodeType.outcome then
            let normalized := (normVals.get? p.1).getD (p.2.weight.getD 1)
            let base := normalized * p.2.confidence.getD 1
              * jsOrOpt (dictGet cfg.weights.edges p.2.type) 1
            let seedWeight := base * nodeMultiplier cfg (some fn)
            dictSet m p.2.src ((dictGet m p.2.src).getD 0 + seedWeight)
          else m
        | none => m)
      []
    if pers.isEmpty then
      outcomeNodes.foldl (fun m n => dictSet m n.id (nodeMultiplier cfg (some n))) []
    else pers

/-- evaluate: build both graphs, run the solver on the forward graph with
the default uniform restart, run it on the reverse graph with the outcome
personalization when that record is non-empty, and blend the two score maps
per agent node with alpha * forward + (1 - alpha) * reverse (missing
entries read as 0 via the  scores[id] || 0  lookups). -/
def evaluateE (cfg : Config) (ns : List Node) (es : List Edge) :
    Except EvalErr Dict := do
  let normVals := computeNormalizedEdgeValues cfg es
  let fwd ← buildGraphE cfg ns es
  let rev ← buildReverseGraphE cfg ns es normVals
  let fscores ← pagerank fwd { alpha := cfg.damping }
  let pers := getOutcomePersonalization cfg ns es normVals
  let ropts : PageRankOptions :=
    if pers.isEmpty then { alpha := cfg.damping }
    else { alpha := cfg.damping, personalization := some pers }
  let rscores ← pagerank rev ropts
  return ns.foldl
    (fun m n =>
      if n.type = NodeType.agent then
        dictSet m n.id
          (cfg.alpha * jsOr ((dictGet fscores n.id).getD 0) 0
            + (1 - cfg.alpha) * jsOr ((dictGet rscores n.id).getD 0) 0)
      else m)
    []

/-- reward: with a total score of exactly 0 return the input record
unchanged, otherwise rescale every entry to score / total * pool. -/
def reward (scores : Dict) (pool : ℚ) : Dict :=
  let totalScore := valuesSum scores
  if totalScore = 0 then scores
  else scores.map (fun p => (p.1, p.2 / totalScore * pool))

/-- Direction helper: the source endpoint the reverse builder passes to
addEdge for a given input edge (the arc is reversed unless the edge's
source node is missing or of type outcome). -/
def revSrc (ns : List Node) (e : Edge) : String :=
  match nodeMap ns e.src with
  | some fn => if fn.type = NodeType.outcome then e.src else e.dst
  | none => e.src

/-- Direction helper: the target endpoint the reverse builder passes to
addEdge. -/
def revDst (ns : List Node) (e : Edge) : String :=
  match nodeMap ns e.src with
  | some fn => if fn.type = NodeType.outcome then e.dst else e.src
  | none => e.dst

/-- The seed contribution of one (index, edge) pair of the personalization
loop: defined exactly when the edge's source node exists and has type
outcome, and equal to
  (normalizedEdgeValues[i] ?? (e.weight ?? 1)) * (e.confidence ?? 1)
    * (weights.edges[e.type] || 1) * nodeMultiplier(fromNode),
keyed by e.from.  Note the target endpoint's multiplier is not part of the
product. -/
def seedFn (cfg : Config) (ns : List Node) (nv : List ℚ) (p : Nat × Edge) :
    Option (String × ℚ) :=
  match nodeMap ns p.2.src with
  | some fn =>
    if fn.type = NodeType.outcome then
      some (p.2.src,
        ((nv.get? p.1).getD (p.2.weight.getD 1)) * p.2.confidence.getD 1
          * jsOrOpt (dictGet cfg.weights.edges p.2.type) 1
          * nodeMultiplier cfg (some fn))
    else none
  | none => none

/-- The key-value contributions the personalization loop accumulates, in
edge order. -/
def outcomeSeedPairs (cfg : Config) (ns : List Node) (es : List Edge)
    (nv : List ℚ) : List (String × ℚ) :=
  es.enum.filterMap (seedFn cfg ns nv)

/-- A constant rank vector used by concrete witnesses. -/
def oneFun : String → ℚ := fun _ => 1

/-- A two-node one-edge graph used by concrete witnesses. -/
def gC1 : WGraph := ⟨["a", "b"], [⟨"a", "b", 1⟩]⟩

/-- The spec's claimed node multiplier (section 3), written from the spec's
words for comparison: an unspecified per-type or per-id multiplier defaults
to 1 and a caller-supplied value — zero included — is used as given. -/
def specNodeMultiplier (cfg : Config) : Option Node → ℚ
  | none => 1
  | some n =>
    cfg.weights.nodesByType n.type
      * (dictGet cfg.weights.nodesById n.id).getD 1
      * n.weight.getD 1

/-- The spec's claimed effective edge weight (section 3), written from the
spec's words for comparison against the weights the builders store. -/
def specEffectiveWeight (cfg : Config) (ns : List Node) (nv : List ℚ)
    (i : Nat) (e : Edge) : ℚ :=
  ((nv.get? i).getD (e.weight.getD 1)) * e.confidence.getD 1
    * (dictGet cfg.weights.edges e.type).getD 1
    * specNodeMultiplier cfg (nodeMap ns e.src)
    * specNodeMultiplier cfg (nodeMap ns e.dst)

/-- The weight attribute of the i-th edge of a built graph, when the build
succeeded and the edge exists. -/
def builtEdgeWeight (r : Except EvalErr WGraph) (i : Nat) : Option ℚ :=
  match r with
  | .ok g => (g.edges[i]?).map (fun e => e.w)
  | .error _ => none

/-- A configuration with no multipliers, normalization mode none and
identity transform, used by concrete instances. -/
def cfgPlain : Config :=
  { alpha := 1/2, damping := 85/100,
    normalization := { edgeWeight := .none, transform := id, epsilon := 0 },
    weights := { edges := [], nodesByType := fun _ => 1, nodesById := [] } }

/-- A configuration whose caller supplies an edge-type multiplier of
exactly 0 for type t. -/
def cfgC5 : Config :=
  { alpha := 1/2, damping := 85/100,
    normalization := { edgeWeight := .none, transform := id, epsilon := 0 },
    weights := { edges := [("t", 0)], nodesByType := fun _ => 1, nodesById := [] } }

/-- A configuration in perSourceTypeSum mode with identity transform and
epsilon 1. -/
def cfgC9 : Config :=
  { alpha := 1/2, damping := 85/100,
    normalization := { edgeWeight := .perSourceTypeSum, transform := id, epsilon := 1 },
    weights := { edges := [], nodesByType := fun _ => 1, nodesById := [] } }

/-- Concrete nodes used by the C2 witness: an outcome, an artifact and an
agent. -/
def nsC2 : List Node :=
  [⟨"o", .outcome, none⟩, ⟨"x", .artifact, none⟩, ⟨"a", .agent, none⟩]

/-- Concrete edges used by the C2 witness: a structural edge and an
outcome-sourced edge. -/
def esC2 : List Edge :=
  [⟨"a", "x", "creates", some 1, none⟩, ⟨"o", "x", "generates", some 2, none⟩]

/-- Concrete nodes for the C5 instances: two agents. -/
def nsC5 : List Node := [⟨"a", .agent, none⟩, ⟨"b", .agent, none⟩]

/-- Concrete edge list for the C5 instances: one edge of type t. -/
def esC5 : List Edge := [⟨"a", "b", "t", some 1, none⟩]

/-- The single edge of esC5. -/
def edgeC5 : Edge := ⟨"a", "b", "t", some 1, none⟩

/-- Concrete nodes for the C3 counterexample: an outcome and an artifact
carrying node weight 2. -/
def nsC3 : List Node := [⟨"o", .outcome, none⟩, ⟨"t2", .artifact, some 2⟩]

/-- Concrete edge for the C3 counterexample: outcome-sourced, weight 1. -/
def esC3 : List Edge := [⟨"o", "t2", "g", some 1, none⟩]

/-- The single edge of esC3. -/
def edgeC3 : Edge := ⟨"o", "t2", "g", some 1, none⟩

/-- Concrete edges whose buckets collide: the pairs (a__b, c) and
(a, b__c) are distinct but share the concatenated key a__b__c. -/
def esC9 : List Edge :=
  [⟨"a__b", "x", "c", some 1, none⟩, ⟨"a", "y", "b__c", some 1, none⟩]

/-- Concrete edges with collision-free keys for the C9 witness. -/
def esC9w : List Edge :=
  [⟨"a", "x", "t", some 2, none⟩, ⟨"a", "y", "t", some 3, none⟩]

/-- The first edge of esC9w. -/
def edgeC9w : Edge := ⟨"a", "x", "t", some 2, none⟩

/-! ## Theorems -/

theorem dictGet_dictSet_self (m : Dict) (k : String) (v : ℚ) :
    dictGet (dictSet m k v) k = some v := by
  induction m with
  | nil => simp [dictSet, dictGet]
  | cons p t ih =>
    by_cases h : p.1 = k
    · simp [dictSet, dictGet, h]
    · simp [dictSet, dictGet, h, ih]

theorem dictGet_dictSet_ne (m : Dict) (k a : String) (v : ℚ) (h : a ≠ k) :
    dictGet (dictSet m k v) a = dictGet m a := by
  have hka : ¬ k = a := fun hh => h hh.symm
  induction m with
  | nil => simp [dictSet, dictGet, hka]
  | cons p t ih =>
    by_cases hp : p.1 = k
    · subst hp
      simp [dictSet, dictGet, hka]
    · by_cases ha : p.1 = a
      · simp [dictSet, dictGet, hp, ha, h]
      · simp [dictSet, dictGet, hp, ha, ih]

theorem dictSet_ne_nil (m : Dict) (k : String) (v : ℚ) :
    dictSet m k v ≠ [] := by
  cases m with
  | nil => simp [dictSet]
  | cons p t =>
    by_cases h : p.1 = k <;> simp [dictSet, h]

theorem dictGet_nil (k : String) : dictGet [] k = none := rfl

/-- Characterization of the accumulation fold: the value stored at a key is
the base value plus the sum of the contributions carrying that key; a key
no pair carries is left untouched. -/
theorem dictAccum_get (l : List (String × ℚ)) (m0 : Dict) (k : String) :
    dictGet (dictAccum l m0) k =
      if (l.filter (fun p => decide (p.1 = k))).isEmpty then dictGet m0 k
      else some ((dictGet m0 k).getD 0
        + ((l.filter (fun p => decide (p.1 = k))).map (fun p => p.2)).sum) := by
  induction l generalizing m0 with
  | nil => simp [dictAccum]
  | cons p t ih =>
    have hstep : dictAccum (p :: t) m0
        = dictAccum t (dictSet m0 p.1 ((dictGet m0 p.1).getD 0 + p.2)) := rfl
    rw [hstep, ih]
    by_cases hk : p.1 = k
    · subst hk
      rw [dictGet_dictSet_self]
      by_cases hemp : (t.filter (fun q => decide (q.1 = p.1))).isEmpty
      · simp only [List.filter_cons, decide_True, hemp, if_true]
        have : (t.filter (fun q => decide (q.1 = p.1))) = [] :=
          List.isEmpty_iff.mp hemp
        simp [this]
      · simp only [List.filter_cons, decide_True, hemp, if_false]
        simp [List.isEmpty_cons, Option.getD_some]
        ring
    · rw [dictGet_dictSet_ne _ _ _ _ (fun hh => hk hh.symm)]
      have hfc : (p :: t).filter (fun q => decide (q.1 = k))
          = t.filter (fun q => decide (q.1 = k)) := by
        simp [List.filter_cons, hk]
      rw [hfc]

theorem hp_sum_map_add {α : Type} (l : List α) (f g : α → ℚ) :
    (l.map (fun a => f a + g a)).sum = (l.map f).sum + (l.map g).sum := by
  induction l with
  | nil => simp
  | cons a t ih => simp [ih]; ring

theorem hp_sum_map_mul_left {α : Type} (l : List α) (c : ℚ) (f : α → ℚ) :
    (l.map (fun a => c * f a)).sum = c * (l.map f).sum := by
  induction l with
  | nil => simp
  | cons a t ih => simp [ih]; ring

theorem hp_sum_ite_eq_of_mem (l : List String) (a : String) (c : ℚ)
    (hnd : l.Nodup) (ha : a ∈ l) :
    (l.map (fun i => if a = i then c else 0)).sum = c := by
  induction l with
  | nil => cases ha
  | cons b t ih =>
    rcases List.nodup_cons.mp hnd with ⟨hbt, hnt⟩
    rcases List.mem_cons.mp ha with h | h
    · subst h
      have : ∀ i ∈ t, (if a = i then c else 0) = 0 := by
        intro i hi
        have : a ≠ i := fun h => hbt (h ▸ hi)
        simp [this]
      simp [List.map_congr_left this]
    · have hba : a ≠ b := by
        intro hh; subst hh; exact hbt h
      simp [hba, ih hnt h]

theorem hp_sum_update_of_mem (l : List String) (a : String) (f : String → ℚ)
    (v : ℚ) (hnd : l.Nodup) (ha : a ∈ l) :
    (l.map (Function.update f a v)).sum = (l.map f).sum - f a + v := by
  induction l with
  | nil => cases ha
  | cons b t ih =>
    rcases List.nodup_cons.mp hnd with ⟨hbt, hnt⟩
    rcases List.mem_cons.mp ha with h | h
    · subst h
      have hupd : ∀ i ∈ t, Function.update f a v i = f i := by
        intro i hi
        have hia : i ≠ a := by
          intro hh; subst hh; exact hbt hi
        exact Function.update_noteq hia _ _
      simp [List.map_congr_left hupd, Function.update_same]
      ring
    · have hba : b ≠ a := by
        intro hh; subst hh; exact hbt h
      simp [Function.update_noteq hba, ih hnt h]
      ring

theorem hp_sum_filter_split (l : List String) (p : String → Bool) (f : String → ℚ) :
    ((l.filter p).map f).sum + ((l.filter (fun x => !(p x))).map f).sum
      = (l.map f).sum := by
  induction l with
  | nil => simp
  | cons a t ih =>
    by_cases h : p a
    · simp [List.filter_cons, h, ← ih]; ring
    · simp [List.filter_cons, h, ← ih]; ring

theorem hp_sum_ite_not_filter (l : List String) (q : String → Prop)
    [DecidablePred q] (h : String → ℚ) :
    (l.map (fun i => if q i then 0 else h i)).sum
      = ((l.filter (fun i => !(decide (q i)))).map h).sum := by
  induction l with
  | nil => simp
  | cons a t ih =>
    by_cases hq : q a
    · simp [List.filter_cons, hq, ih]
    · simp [List.filter_cons, hq, ih]

/-- Grouping a sum over a list of edges into per-key buckets drawn from a
duplicate-free key list covering every edge. -/
theorem hp_sum_buckets (key : WEdge → String) (f : WEdge → ℚ) :
    ∀ (E : List WEdge) (l : List String), l.Nodup → (∀ e ∈ E, key e ∈ l) →
    (l.map (fun i => ((E.filter (fun x => decide (key x = i))).map f).sum)).sum
      = (E.map f).sum := by
  intro E
  induction E with
  | nil =>
    intro l _ _
    simp
  | cons e E' ih =>
    intro l hnd hkey
    have hterm : ∀ i ∈ l,
        ((List.filter (fun x => decide (key x = i)) (e :: E')).map f).sum
          = (if key e = i then f e else 0)
            + ((List.filter (fun x => decide (key x = i)) E').map f).sum := by
      intro i _
      by_cases h : key e = i
      · simp [List.filter_cons, h]
      · simp [List.filter_cons, h]
    rw [List.map_congr_left hterm, hp_sum_map_add,
      hp_sum_ite_eq_of_mem l (key e) (f e) hnd (hkey e (by simp)),
      ih l hnd (fun x hx => hkey x (List.mem_cons_of_mem _ hx))]
    simp

/-- The flow fold of one pass, evaluated at a point: the base value plus
the contributions of the edges pointing at that point. -/
theorem flowFold_apply (g : WGraph) (alpha : ℚ) (x : String → ℚ) :
    ∀ (E : List WEdge) (x0 : String → ℚ) (v : String),
    (E.foldl (flowUpdate g alpha x) x0) v
      = x0 v + ((E.filter (fun e => decide (e.dst = v))).map
          (fun e => alpha * x e.src * (e.w / outDeg g e.src))).sum := by
  intro E
  induction E with
  | nil => intro x0 v; simp
  | cons e E' ih =>
    intro x0 v
    rw [List.foldl_cons, ih]
    by_cases h : e.dst = v
    · subst h
      simp [flowUpdate, Function.update_same, List.filter_cons]
      ring
    · have hvd : v ≠ e.dst := fun hh => h hh.symm
      simp [flowUpdate, Function.update_noteq hvd, List.filter_cons, h]

/-- One pass of the power iteration, at a node of the graph: the inflow
sum plus the dangling redistribution and the random-jump term. -/
theorem pagerankStep_eq (g : WGraph) (alpha : ℚ) (p x : String → ℚ)
    (v : String) (hv : v ∈ g.nodes) :
    pagerankStep g alpha p x v
      = ((g.edges.filter (fun e => decide (e.dst = v))).map
          (fun e => alpha * x e.src * (e.w / outDeg g e.src))).sum
        + alpha * danglingMass g x * p v + (1 - alpha) * p v := by
  have hdef : pagerankStep g alpha p x v
      = (g.edges.foldl (flowUpdate g alpha x) (fun _ => 0)) v
        + (if v ∈ g.nodes then alpha * danglingMass g x * p v + (1 - alpha) * p v
           else 0) := rfl
  rw [hdef, flowFold_apply g alpha x g.edges (fun _ => 0) v, if_pos hv]
  ring

/-- One pass of the power iteration preserves total rank mass 1 over the
nodes, for any restart distribution of mass 1 (exact arithmetic). -/
theorem pagerankStep_mass (g : WGraph) (alpha : ℚ) (p x : String → ℚ)
    (hnd : g.nodes.Nodup)
    (hsrc : ∀ e ∈ g.edges, e.src ∈ g.nodes)
    (hdst : ∀ e ∈ g.edges, e.dst ∈ g.nodes)
    (hp : (g.nodes.map p).sum = 1)
    (hx : (g.nodes.map x).sum = 1) :
    (g.nodes.map (pagerankStep g alpha p x)).sum = 1 := by
  have hstep : ∀ v ∈ g.nodes, pagerankStep g alpha p x v
      = (fun v => ((g.edges.filter (fun e => decide (e.dst = v))).map
          (fun e => alpha * x e.src * (e.w / outDeg g e.src))).sum) v
        + (fun v => alpha * danglingMass g x * p v + (1 - alpha) * p v) v := by
    intro v hv
    rw [pagerankStep_eq g alpha p x v hv]
    ring
  rw [List.map_congr_left hstep, hp_sum_map_add]
  -- the inflow part, regrouped per source node
  have hflow : (g.nodes.map (fun v =>
      ((g.edges.filter (fun e => decide (e.dst = v))).map
        (fun e => alpha * x e.src * (e.w / outDeg g e.src))).sum)).sum
      = alpha * (1 - danglingMass g x) := by
    rw [hp_sum_buckets (fun e => e.dst)
      (fun e => alpha * x e.src * (e.w / outDeg g e.src)) g.edges g.nodes hnd hdst,
      ← hp_sum_buckets (fun e => e.src)
        (fun e => alpha * x e.src * (e.w / outDeg g e.src)) g.edges g.nodes hnd hsrc]
    have hbucket : ∀ i ∈ g.nodes,
        ((List.filter (fun e => decide (e.src = i)) g.edges).map
          (fun e => alpha * x e.src * (e.w / outDeg g e.src))).sum
        = (fun i => if outDeg g i = 0 then 0 else alpha * x i) i := by
      intro i _
      have hmem : ∀ e ∈ List.filter (fun e => decide (e.src = i)) g.edges,
          alpha * x e.src * (e.w / outDeg g e.src)
            = (alpha * x i / outDeg g i) * e.w := by
        intro e he
        have hsrc_eq : e.src = i := by
          have := (List.mem_filter.mp he).2
          simpa using this
        rw [hsrc_eq]
        ring
      rw [List.map_congr_left hmem, hp_sum_map_mul_left]
      have hsum : ((List.filter (fun e => decide (e.src = i)) g.edges).map
          (fun e => e.w)).sum = outDeg g i := rfl
      rw [hsum]
      by_cases hd : outDeg g i = 0
      · simp [hd]
      · simp only [hd, if_false]
        field_simp
    rw [List.map_congr_left hbucket,
      hp_sum_ite_not_filter g.nodes (fun i => outDeg g i = 0) (fun i => alpha * x i),
      hp_sum_map_mul_left]
    have hsplit := hp_sum_filter_split g.nodes
      (fun i => decide (outDeg g i = 0)) x
    have hdm : ((g.nodes.filter (fun i => decide (outDeg g i = 0))).map x).sum
        = danglingMass g x := rfl
    have hfe : (g.nodes.filter (fun i => !(decide (outDeg g i = 0))))
        = (g.nodes.filter (fun i => !(decide ((fun i => outDeg g i = 0) i)))) := rfl
    rw [← hfe] at *
    have : ((g.nodes.filter (fun i => !decide (outDeg g i = 0))).map x).sum
        = 1 - danglingMass g x := by
      rw [← hx, ← hsplit, hdm]
      ring
    rw [this]
  rw [hflow]
  -- the dangling-plus-jump part
  have hjump : (g.nodes.map (fun v =>
      alpha * danglingMass g x * p v + (1 - alpha) * p v)).sum
      = alpha * danglingMass g x + (1 - alpha) := by
    rw [hp_sum_map_add, hp_sum_map_mul_left, hp_sum_map_mul_left, hp]
    ring
  rw [hjump]
  ring

theorem hp_sum_map_const {α : Type} (l : List α) (c : ℚ) :
    (l.map (fun _ => c)).sum = (l.length : ℚ) * c := by
  induction l with
  | nil => simp
  | cons a t ih =>
    simp [ih]
    ring

theorem pagerankLoop_zero (g : WGraph) (alpha tol : ℚ) (p x : String → ℚ) :
    pagerankLoop g alpha tol p 0 x = .error .nonConvergence := rfl

theorem pagerankLoop_succ (g : WGraph) (alpha tol : ℚ) (p : String → ℚ)
    (n : Nat) (x : String → ℚ) :
    pagerankLoop g alpha tol p (n + 1) x
      = (if (g.nodes.map (fun v => |pagerankStep g alpha p x v - x v|)).sum
            < (g.nodes.length : ℚ) * tol
         then .ok (pagerankStep g alpha p x)
         else pagerankLoop g alpha tol p n (pagerankStep g alpha p x)) := rfl

/-- Every vector the while loop can return carries total mass 1 when the
initial vector and the restart distribution do. -/
theorem pagerankLoop_mass (g : WGraph) (alpha tol : ℚ) (p : String → ℚ)
    (hnd : g.nodes.Nodup)
    (hsrc : ∀ e ∈ g.edges, e.src ∈ g.nodes)
    (hdst : ∀ e ∈ g.edges, e.dst ∈ g.nodes)
    (hp : (g.nodes.map p).sum = 1) :
    ∀ (fuel : Nat) (x y : String → ℚ), (g.nodes.map x).sum = 1 →
      pagerankLoop g alpha tol p fuel x = .ok y → (g.nodes.map y).sum = 1 := by
  intro fuel
  induction fuel with
  | zero =>
    intro x y _ hok
    rw [pagerankLoop_zero] at hok
    simp at hok
  | succ n ih =>
    intro x y hx hok
    rw [pagerankLoop_succ] at hok
    split at hok
    · cases hok
      exact pagerankStep_mass g alpha p x hnd hsrc hdst hp hx
    · exact ih _ y (pagerankStep_mass g alpha p x hnd hsrc hdst hp hx) hok

theorem pagerankWithP_mass (g : WGraph) (o : PageRankOptions)
    (p : String → ℚ) (r : Dict)
    (hnd : g.nodes.Nodup)
    (hsrc : ∀ e ∈ g.edges, e.src ∈ g.nodes)
    (hdst : ∀ e ∈ g.edges, e.dst ∈ g.nodes)
    (hp : (g.nodes.map p).sum = 1)
    (hok : pagerankWithP g o p = .ok r) :
    valuesSum r = 1 := by
  unfold pagerankWithP at hok
  cases hloop : pagerankLoop g o.alpha o.tolerance p o.maxIterations p with
  | error e => rw [hloop] at hok; simp [Except.map] at hok
  | ok y =>
    rw [hloop] at hok
    simp [Except.map] at hok
    have hy := pagerankLoop_mass g o.alpha o.tolerance p hnd hsrc hdst hp
      o.maxIterations p y hp hloop
    rw [← hok]
    simpa [valuesSum, collect, List.map_map, Function.comp] using hy

/-- Every successful solver run on a non-empty graph returns a record whose
values sum to exactly 1 (exact arithmetic). -/
theorem pagerank_mass (g : WGraph) (o : PageRankOptions) (r : Dict)
    (hnd : g.nodes.Nodup)
    (hsrc : ∀ e ∈ g.edges, e.src ∈ g.nodes)
    (hdst : ∀ e ∈ g.edges, e.dst ∈ g.nodes)
    (hne : g.nodes ≠ [])
    (hok : pagerank g o = .ok r) :
    valuesSum r = 1 := by
  have hlen : ¬ (g.nodes.length = 0) := fun h => hne (List.length_eq_zero.mp h)
  unfold pagerank at hok
  rw [if_neg hlen] at hok
  have hlenQ : ((g.nodes.length : ℚ)) ≠ 0 := by
    exact_mod_cast hlen
  cases hpers : o.personalization with
  | none =>
    rw [hpers] at hok
    have hpmass : (g.nodes.map (fun _ => 1 / (g.nodes.length : ℚ))).sum = 1 := by
      rw [hp_sum_map_const]
      field_simp
    exact pagerankWithP_mass g o _ r hnd hsrc hdst hpmass hok
  | some pers =>
    rw [hpers] at hok
    have hok2 : (if (g.nodes.map (fun k => (dictGet pers k).getD 0)).sum = 0
        then (Except.error EvalErr.zeroPersonalizationSum : Except EvalErr Dict)
        else pagerankWithP g o (fun k => (dictGet pers k).getD 0
          / (g.nodes.map (fun k => (dictGet pers k).getD 0)).sum)) = .ok r := hok
    clear hok
    by_cases hs : (g.nodes.map (fun k => (dictGet pers k).getD 0)).sum = 0
    · rw [if_pos hs] at hok2
      simp at hok2
    · rw [if_neg hs] at hok2
      have hpmass : (g.nodes.map (fun k =>
          (dictGet pers k).getD 0
            / (g.nodes.map (fun k => (dictGet pers k).getD 0)).sum)).sum = 1 := by
        have hcongr : ∀ k ∈ g.nodes,
            (dictGet pers k).getD 0
                / (g.nodes.map (fun k => (dictGet pers k).getD 0)).sum
              = ((g.nodes.map (fun k => (dictGet pers k).getD 0)).sum)⁻¹
                * (dictGet pers k).getD 0 := by
          intro k _
          rw [div_eq_mul_inv, mul_comm]
        rw [List.map_congr_left hcongr, hp_sum_map_mul_left]
        exact inv_mul_cancel₀ hs
      exact pagerankWithP_mass g o _ r hnd hsrc hdst hpmass hok2

theorem flowFold_congr (g : WGraph) (alpha : ℚ) (x1 x2 : String → ℚ) :
    ∀ (E : List WEdge) (x0 : String → ℚ), (∀ e ∈ E, x1 e.src = x2 e.src) →
      E.foldl (flowUpdate g alpha x1) x0 = E.foldl (flowUpdate g alpha x2) x0 := by
  intro E
  induction E with
  | nil => intro x0 _; rfl
  | cons e E' ih =>
    intro x0 h
    rw [List.foldl_cons, List.foldl_cons]
    have hstep : flowUpdate g alpha x1 x0 e = flowUpdate g alpha x2 x0 e := by
      unfold flowUpdate
      rw [h e (by simp)]
    rw [hstep]
    exact ih _ (fun e' he' => h e' (List.mem_cons_of_mem _ he'))

theorem pagerankStep_congr (g : WGraph) (alpha : ℚ) (p1 p2 x1 x2 : String → ℚ)
    (hsrc : ∀ e ∈ g.edges, e.src ∈ g.nodes)
    (hx : ∀ v ∈ g.nodes, x1 v = x2 v)
    (hp : ∀ v ∈ g.nodes, p1 v = p2 v) :
    pagerankStep g alpha p1 x1 = pagerankStep g alpha p2 x2 := by
  funext v
  have h1 : pagerankStep g alpha p1 x1 v
      = (g.edges.foldl (flowUpdate g alpha x1) (fun _ => 0)) v
        + (if v ∈ g.nodes then alpha * danglingMass g x1 * p1 v + (1 - alpha) * p1 v
           else 0) := rfl
  have h2 : pagerankStep g alpha p2 x2 v
      = (g.edges.foldl (flowUpdate g alpha x2) (fun _ => 0)) v
        + (if v ∈ g.nodes then alpha * danglingMass g x2 * p2 v + (1 - alpha) * p2 v
           else 0) := rfl
  rw [h1, h2,
    flowFold_congr g alpha x1 x2 g.edges (fun _ => 0)
      (fun e he => hx e.src (hsrc e he))]
  have hdm : danglingMass g x1 = danglingMass g x2 := by
    unfold danglingMass
    exact congrArg List.sum (List.map_congr_left
      (fun i hi => hx i (List.mem_filter.mp hi).1))
  rw [hdm]
  by_cases hv : v ∈ g.nodes
  · simp [hv, hp v hv]
  · simp [hv]

theorem pagerankLoop_congr (g : WGraph) (alpha tol : ℚ) (p1 p2 : String → ℚ)
    (hsrc : ∀ e ∈ g.edges, e.src ∈ g.nodes)
    (hp : ∀ v ∈ g.nodes, p1 v = p2 v) :
    ∀ (fuel : Nat) (x1 x2 : String → ℚ), (∀ v ∈ g.nodes, x1 v = x2 v) →
      (pagerankLoop g alpha tol p1 fuel x1).map (collect g)
        = (pagerankLoop g alpha tol p2 fuel x2).map (collect g) := by
  intro fuel
  induction fuel with
  | zero => intro x1 x2 _; rfl
  | succ n ih =>
    intro x1 x2 hx
    rw [pagerankLoop_succ, pagerankLoop_succ,
      pagerankStep_congr g alpha p1 p2 x1 x2 hsrc hx hp]
    have herr : (g.nodes.map (fun v => |pagerankStep g alpha p2 x2 v - x1 v|)).sum
        = (g.nodes.map (fun v => |pagerankStep g alpha p2 x2 v - x2 v|)).sum := by
      exact congrArg List.sum (List.map_congr_left (fun v hv => by rw [hx v hv]))
    rw [herr]
    by_cases hc : (g.nodes.map (fun v => |pagerankStep g alpha p2 x2 v - x2 v|)).sum
        < (g.nodes.length : ℚ) * tol
    · rw [if_pos hc, if_pos hc]
    · rw [if_neg hc, if_neg hc]
      exact ih _ _ (fun v _ => rfl)

theorem hp_mem_enumFrom {α : Type} :
    ∀ (l : List α) (n : Nat) (p : Nat × α), p ∈ l.enumFrom n → p.2 ∈ l := by
  intro l
  induction l with
  | nil => intro n p h; simp [List.enumFrom] at h
  | cons a t ih =>
    intro n p h
    simp only [List.enumFrom, List.mem_cons] at h
    rcases h with h | h
    · subst h; simp
    · exact List.mem_cons_of_mem _ (ih _ p h)

theorem hp_mem_enum {α : Type} (l : List α) (p : Nat × α) (h : p ∈ l.enum) :
    p.2 ∈ l :=
  hp_mem_enumFrom l 0 p h

theorem hp_filterMap_ne_nil {α β : Type} (l : List α) (f : α → Option β)
    (h : l.filterMap f ≠ []) : ∃ a ∈ l, ∃ b, f a = some b := by
  induction l with
  | nil => simp [List.filterMap] at h
  | cons a t ih =>
    cases hfa : f a with
    | some b => exact ⟨a, by simp, b, hfa⟩
    | none =>
      rw [List.filterMap_cons, hfa] at h
      rcases ih h with ⟨x, hx, b, hb⟩
      exact ⟨x, List.mem_cons_of_mem _ hx, b, hb⟩

theorem nodeMap_mem (ns : List Node) (s : String) (n : Node) :
    nodeMap ns s = some n → n ∈ ns := by
  unfold nodeMap
  suffices h : ∀ acc : Option Node,
      ns.foldl (fun acc x => if x.id = s then some x else acc) acc = some n →
        acc = some n ∨ n ∈ ns by
    intro hh
    rcases h none hh with h1 | h1
    · simp at h1
    · exact h1
  intro acc
  induction ns generalizing acc with
  | nil => intro h; exact Or.inl h
  | cons m t ih =>
    intro h
    rw [List.foldl_cons] at h
    rcases ih _ h with h1 | h1
    · by_cases hm : m.id = s
      · rw [if_pos hm] at h1
        have hmn : m = n := by injection h1
        cases hmn
        exact Or.inr (List.mem_cons_self _ _)
      · rw [if_neg hm] at h1
        exact Or.inl h1
    · exact Or.inr (List.mem_cons_of_mem _ h1)

theorem addNodesE_go (ns : List Node) :
    ∀ acc : List String,
      (∀ n ∈ ns, n.id ∉ acc) → (ns.map Node.id).Nodup →
      (ns.foldlM
        (fun acc n =>
          if n.id ∈ acc then Except.error (EvalErr.duplicateNode n.id)
          else Except.ok (acc ++ [n.id]))
        acc)
      = .ok (acc ++ ns.map Node.id) := by
  induction ns with
  | nil =>
    intro acc _ _
    simp
    rfl
  | cons n t ih =>
    intro acc hnot hnd
    rw [List.foldlM_cons, if_neg (hnot n (by simp))]
    have hbind : ((Except.ok (acc ++ [n.id]) : Except EvalErr (List String)) >>=
        fun acc' => t.foldlM
          (fun acc n =>
            if n.id ∈ acc then Except.error (EvalErr.duplicateNode n.id)
            else Except.ok (acc ++ [n.id])) acc')
        = t.foldlM
          (fun acc n =>
            if n.id ∈ acc then Except.error (EvalErr.duplicateNode n.id)
            else Except.ok (acc ++ [n.id])) (acc ++ [n.id]) := rfl
    rw [hbind]
    have hnd2 : (n.id :: t.map Node.id).Nodup := by
      rw [List.map_cons] at hnd
      exact hnd
    rcases List.nodup_cons.mp hnd2 with ⟨hn, hnd'⟩
    have hnot' : ∀ m ∈ t, m.id ∉ acc ++ [n.id] := by
      intro m hm
      simp only [List.mem_append, List.mem_singleton]
      rintro (h | h)
      · exact hnot m (List.mem_cons_of_mem _ hm) h
      · exact hn (h ▸ List.mem_map_of_mem Node.id hm)
    rw [ih _ hnot' hnd']
    simp

theorem addNodesE_ok (ns : List Node) (hnd : (ns.map Node.id).Nodup) :
    addNodesE ns = .ok (ns.map Node.id) := by
  have h := addNodesE_go ns [] (by simp) hnd
  simpa [addNodesE] using h

theorem hp_edgeFold_ok {α : Type} (ids : List String) (s d : α → String)
    (w : α → ℚ) :
    ∀ (L : List α) (acc : List WEdge), (∀ p ∈ L, s p ∈ ids ∧ d p ∈ ids) →
      L.foldlM (fun acc p => addEdgeE ids acc (s p) (d p) (w p)) acc
        = .ok (acc ++ L.map (fun p => ⟨s p, d p, w p⟩)) := by
  intro L
  induction L with
  | nil =>
    intro acc _
    simp
    rfl
  | cons p L' ih =>
    intro acc h
    rw [List.foldlM_cons]
    have hstep : addEdgeE ids acc (s p) (d p) (w p)
        = .ok (acc ++ [⟨s p, d p, w p⟩]) := by
      unfold addEdgeE
      rw [if_neg (not_not_intro (h p (by simp)).1),
        if_neg (not_not_intro (h p (by simp)).2)]
    rw [hstep]
    have hbind : ((Except.ok (acc ++ [(⟨s p, d p, w p⟩ : WEdge)]) :
          Except EvalErr (List WEdge)) >>=
        fun acc' => L'.foldlM (fun acc p => addEdgeE ids acc (s p) (d p) (w p)) acc')
        = L'.foldlM (fun acc p => addEdgeE ids acc (s p) (d p) (w p))
            (acc ++ [⟨s p, d p, w p⟩]) := rfl
    rw [hbind, ih _ (fun q hq => h q (List.mem_cons_of_mem _ hq))]
    simp

/-- The forward builder succeeds on well-formed input, producing the node
id list and one forward arc per input edge carrying its effective
weight. -/
theorem buildGraphE_ok (cfg : Config) (ns : List Node) (es : List Edge)
    (hnd : (ns.map Node.id).Nodup)
    (hep : ∀ e ∈ es, e.src ∈ ns.map Node.id ∧ e.dst ∈ ns.map Node.id) :
    buildGraphE cfg ns es = .ok ⟨ns.map Node.id,
      es.enum.map (fun p => ⟨p.2.src, p.2.dst,
        effWeight cfg ns (computeNormalizedEdgeValues cfg es) p.1 p.2⟩)⟩ := by
  have h1 : buildGraphE cfg ns es
      = (es.enum.foldlM
          (fun acc p => addEdgeE (ns.map Node.id) acc p.2.src p.2.dst
            (effWeight cfg ns (computeNormalizedEdgeValues cfg es) p.1 p.2)) []).bind
        (fun edges => .ok ⟨ns.map Node.id, edges⟩) := by
    unfold buildGraphE
    rw [addNodesE_ok ns hnd]
    rfl
  rw [h1, hp_edgeFold_ok (ns.map Node.id) (fun p => p.2.src) (fun p => p.2.dst)
    (fun p => effWeight cfg ns (computeNormalizedEdgeValues cfg es) p.1 p.2)
    es.enum []
    (fun p hp => hep p.2 (hp_mem_enum es p hp))]
  rfl

/-- The reverse builder succeeds on well-formed input, producing the node
id list and one arc per input edge, directed by revSrc / revDst and
carrying the same effective weight as the forward graph. -/
theorem buildReverseGraphE_ok (cfg : Config) (ns : List Node) (es : List Edge)
    (normVals : List ℚ)
    (hnd : (ns.map Node.id).Nodup)
    (hep : ∀ e ∈ es, e.src ∈ ns.map Node.id ∧ e.dst ∈ ns.map Node.id) :
    buildReverseGraphE cfg ns es normVals = .ok ⟨ns.map Node.id,
      es.enum.map (fun p => ⟨revSrc ns p.2, revDst ns p.2,
        effWeight cfg ns normVals p.1 p.2⟩)⟩ := by
  have hbody : (fun (acc : List WEdge) (p : Nat × Edge) =>
      let w := effWeight cfg ns normVals p.1 p.2
      match nodeMap ns p.2.src with
      | some fn =>
        if fn.type = NodeType.outcome then addEdgeE (ns.map Node.id) acc p.2.src p.2.dst w
        else addEdgeE (ns.map Node.id) acc p.2.dst p.2.src w
      | none => addEdgeE (ns.map Node.id) acc p.2.src p.2.dst w)
      = (fun acc p => addEdgeE (ns.map Node.id) acc (revSrc ns p.2) (revDst ns p.2)
          (effWeight cfg ns normVals p.1 p.2)) := by
    funext acc p
    unfold revSrc revDst
    cases hfn : nodeMap ns p.2.src with
    | some fn =>
      by_cases ht : fn.type = NodeType.outcome
      · simp [ht]
      · simp [ht]
    | none => simp
  have h1 : buildReverseGraphE cfg ns es normVals
      = (es.enum.foldlM
          (fun acc p => addEdgeE (ns.map Node.id) acc (revSrc ns p.2) (revDst ns p.2)
            (effWeight cfg ns normVals p.1 p.2)) []).bind
        (fun edges => .ok ⟨ns.map Node.id, edges⟩) := by
    unfold buildReverseGraphE
    rw [addNodesE_ok ns hnd]
    show (es.enum.foldlM
        (fun (acc : List WEdge) (p : Nat × Edge) =>
          let w := effWeight cfg ns normVals p.1 p.2
          match nodeMap ns p.2.src with
          | some fn =>
            if fn.type = NodeType.outcome then
              addEdgeE (ns.map Node.id) acc p.2.src p.2.dst w
            else addEdgeE (ns.map Node.id) acc p.2.dst p.2.src w
          | none => addEdgeE (ns.map Node.id) acc p.2.src p.2.dst w) []).bind
        (fun edges => (.ok ⟨ns.map Node.id, edges⟩ : Except EvalErr WGraph)) = _
    rw [hbody]
  have hrev : ∀ p ∈ es.enum,
      revSrc ns p.2 ∈ ns.map Node.id ∧ revDst ns p.2 ∈ ns.map Node.id := by
    intro p hp
    have he := hep p.2 (hp_mem_enum es p hp)
    unfold revSrc revDst
    cases hfn : nodeMap ns p.2.src with
    | some fn =>
      by_cases ht : fn.type = NodeType.outcome
      · simp [ht, he.1, he.2]
      · simp [ht, he.1, he.2]
    | none => simp [he.1, he.2]
  rw [h1, hp_edgeFold_ok (ns.map Node.id) (fun p => revSrc ns p.2)
    (fun p => revDst ns p.2) (fun p => effWeight cfg ns normVals p.1 p.2)
    es.enum [] hrev]
  rfl

theorem hp_foldl_skip_accum {α : Type} (f : α → Option (String × ℚ)) :
    ∀ (L : List α) (m0 : Dict),
      L.foldl (fun m p =>
        match f p with
        | some kv => dictSet m kv.1 ((dictGet m kv.1).getD 0 + kv.2)
        | none => m) m0
      = dictAccum (L.filterMap f) m0 := by
  intro L
  induction L with
  | nil => intro m0; rfl
  | cons a t ih =>
    intro m0
    rw [List.foldl_cons, List.filterMap_cons]
    cases hfa : f a with
    | none =>
      simp only [hfa]
      exact ih m0
    | some kv =>
      simp only [hfa]
      rw [show dictAccum (kv :: t.filterMap f) m0
          = dictAccum (t.filterMap f)
              (dictSet m0 kv.1 ((dictGet m0 kv.1).getD 0 + kv.2)) from rfl]
      exact ih _

/-- When at least one edge qualifies, the personalization record is the
plain accumulation of the seed contributions (no fallback). -/
theorem getOutcomePersonalization_accum (cfg : Config) (ns : List Node)
    (es : List Edge) (nv : List ℚ)
    (hq : outcomeSeedPairs cfg ns es nv ≠ []) :
    getOutcomePersonalization cfg ns es nv
      = dictAccum (outcomeSeedPairs cfg ns es nv) [] := by
  obtain ⟨p, hpmem, kv, hkv⟩ := hp_filterMap_ne_nil _ _ hq
  have hout : ∃ fn, nodeMap ns p.2.src = some fn ∧ fn.type = NodeType.outcome := by
    unfold seedFn at hkv
    cases hfn : nodeMap ns p.2.src with
    | none => rw [hfn] at hkv; simp at hkv
    | some fn =>
      rw [hfn] at hkv
      by_cases ht : fn.type = NodeType.outcome
      · exact ⟨fn, rfl, ht⟩
      · simp [ht] at hkv
  obtain ⟨fn, hfn, ht⟩ := hout
  have hfnmem : fn ∈ ns := nodeMap_mem ns p.2.src fn hfn
  have honode : ¬ ((ns.filter (fun n => decide (n.type = NodeType.outcome))).isEmpty
      = true) := by
    have hmem : fn ∈ ns.filter (fun n => decide (n.type = NodeType.outcome)) :=
      List.mem_filter.mpr ⟨hfnmem, by simp [ht]⟩
    intro hemp
    rw [List.isEmpty_iff] at hemp
    rw [hemp] at hmem
    cases hmem
  have hbe : (fun (m : Dict) (p : Nat × Edge) =>
      match nodeMap ns p.2.src with
      | some fn =>
        if fn.type = NodeType.outcome then
          let normalized := (nv.get? p.1).getD (p.2.weight.getD 1)
          let base := normalized * p.2.confidence.getD 1
            * jsOrOpt (dictGet cfg.weights.edges p.2.type) 1
          let seedWeight := base * nodeMultiplier cfg (some fn)
          dictSet m p.2.src ((dictGet m p.2.src).getD 0 + seedWeight)
        else m
      | none => m)
      = (fun m p =>
        match seedFn cfg ns nv p with
        | some kv => dictSet m kv.1 ((dictGet m kv.1).getD 0 + kv.2)
        | none => m) := by
    funext m q
    unfold seedFn
    cases nodeMap ns q.2.src with
    | some fn2 =>
      by_cases ht2 : fn2.type = NodeType.outcome
      · simp [ht2]
      · simp [ht2]
    | none => rfl
  have hpersne : dictAccum (outcomeSeedPairs cfg ns es nv) [] ≠ [] := by
    cases hpairs : outcomeSeedPairs cfg ns es nv with
    | nil => exact absurd hpairs hq
    | cons q rest =>
      intro hnil
      have hget := dictAccum_get (q :: rest) [] q.1
      rw [hnil] at hget
      have hne : ¬ (((q :: rest).filter (fun r => decide (r.1 = q.1))).isEmpty
          = true) := by
        simp [List.filter_cons]
      rw [if_neg hne] at hget
      simp [dictGet] at hget
  have hdef : getOutcomePersonalization cfg ns es nv
      = (if (ns.filter (fun n => decide (n.type = NodeType.outcome))).isEmpty then []
         else
           if (es.enum.foldl
              (fun (m : Dict) (p : Nat × Edge) =>
                match nodeMap ns p.2.src with
                | some fn =>
                  if fn.type = NodeType.outcome then
                    let normalized := (nv.get? p.1).getD (p.2.weight.getD 1)
                    let base := normalized * p.2.confidence.getD 1
                      * jsOrOpt (dictGet cfg.weights.edges p.2.type) 1
                    let seedWeight := base * nodeMultiplier cfg (some fn)
                    dictSet m p.2.src ((dictGet m p.2.src).getD 0 + seedWeight)
                  else m
                | none => m) []).isEmpty then
             (ns.filter (fun n => decide (n.type = NodeType.outcome))).foldl
               (fun m n => dictSet m n.id (nodeMultiplier cfg (some n))) []
           else
             es.enum.foldl
              (fun (m : Dict) (p : Nat × Edge) =>
                match nodeMap ns p.2.src with
                | some fn =>
                  if fn.type = NodeType.outcome then
                    let normalized := (nv.get? p.1).getD (p.2.weight.getD 1)
                    let base := normalized * p.2.confidence.getD 1
                      * jsOrOpt (dictGet cfg.weights.edges p.2.type) 1
                    let seedWeight := base * nodeMultiplier cfg (some fn)
                    dictSet m p.2.src ((dictGet m p.2.src).getD 0 + seedWeight)
                  else m
                | none => m) []) := rfl
  rw [hdef, if_neg honode, hbe, hp_foldl_skip_accum (seedFn cfg ns nv) es.enum []]
  rw [if_neg (by simpa [List.isEmpty_iff] using hpersne)]
  rfl

/-- Claim C1: each pass of the solver's power iteration recomputes the full
next vector from the previous rank vector as
  next[j] = sum over edges i to j of alpha * rank[i] * (w(i,j) / outDeg(i)),
and then adds, at every node v,
  alpha * danglingMass * p[v] + (1 - alpha) * p[v],
where danglingMass is the rank mass on nodes of zero weighted
out-degree. -/
theorem hybrid_C1_power_iteration_step (g : WGraph) (alpha : ℚ)
    (p x : String → ℚ) (v : String) (hv : v ∈ g.nodes) :
    pagerankStep g alpha p x v
      = ((g.edges.filter (fun e => decide (e.dst = v))).map
          (fun e => alpha * x e.src * (e.w / outDeg g e.src))).sum
        + alpha * danglingMass g x * p v + (1 - alpha) * p v :=
  pagerankStep_eq g alpha p x v hv

theorem hybrid_C1_power_iteration_step_witness :
    pagerankStep gC1 (1/2) oneFun oneFun "b"
      = ((gC1.edges.filter (fun e => decide (e.dst = "b"))).map
          (fun e => 1/2 * oneFun e.src * (e.w / outDeg gC1 e.src))).sum
        + 1/2 * danglingMass gC1 oneFun * oneFun "b" + (1 - 1/2) * oneFun "b" :=
  hybrid_C1_power_iteration_step gC1 (1/2) oneFun oneFun "b" (by decide)

/-- Claim C6: on a non-empty graph, an explicit restart distribution whose
sum over the graph's nodes is exactly zero makes the solver fail with the
zero-personalization error and return no result; a nonzero sum makes the
solver run on the distribution normalized by its own sum. -/
theorem hybrid_C6_zero_personalization (g : WGraph) (o : PageRankOptions)
    (pers : Dict) (hne : g.nodes ≠ []) (hp : o.personalization = some pers) :
    ((g.nodes.map (fun k => (dictGet pers k).getD 0)).sum = 0 →
        pagerank g o = .error .zeroPersonalizationSum) ∧
    ((g.nodes.map (fun k => (dictGet pers k).getD 0)).sum ≠ 0 →
        pagerank g o = pagerankWithP g o
          (fun k => (dictGet pers k).getD 0
            / (g.nodes.map (fun k => (dictGet pers k).getD 0)).sum)) := by
  have hlen : ¬ (g.nodes.length = 0) := fun h => hne (List.length_eq_zero.mp h)
  have hdef : pagerank g o
      = (if (g.nodes.map (fun k => (dictGet pers k).getD 0)).sum = 0
         then (.error .zeroPersonalizationSum : Except EvalErr Dict)
         else pagerankWithP g o
           (fun k => (dictGet pers k).getD 0
             / (g.nodes.map (fun k => (dictGet pers k).getD 0)).sum)) := by
    unfold pagerank
    rw [if_neg hlen, hp]
  constructor
  · intro h
    rw [hdef, if_pos h]
  · intro h
    rw [hdef, if_neg h]

theorem hybrid_C6_zero_personalization_witness :
    (pagerank ⟨["a"], []⟩ { personalization := some [("a", 0)] }
        = .error .zeroPersonalizationSum)
    ∧ (pagerank ⟨["a"], []⟩ { personalization := some [("a", 2)] }
        = pagerankWithP ⟨["a"], []⟩ { personalization := some [("a", 2)] }
          (fun k => (dictGet [("a", 2)] k).getD 0
            / ((["a"] : List String).map
                (fun k => (dictGet [("a", 2)] k).getD 0)).sum)) :=
  ⟨(hybrid_C6_zero_personalization ⟨["a"], []⟩
      { personalization := some [("a", 0)] } [("a", 0)]
      (by decide) rfl).1 (by norm_num [dictGet]),
   (hybrid_C6_zero_personalization ⟨["a"], []⟩
      { personalization := some [("a", 2)] } [("a", 2)]
      (by decide) rfl).2 (by norm_num [dictGet])⟩

/-- Claim C7: reward is total; with a total score of exactly 0 it returns
the input record unchanged, otherwise it rescales every entry to
score / total * pool and the output values sum exactly to pool. -/
theorem hybrid_C7_reward (scores : Dict) (pool : ℚ) :
    (valuesSum scores = 0 → reward scores pool = scores) ∧
    (valuesSum scores ≠ 0 →
      reward scores pool
          = scores.map (fun p => (p.1, p.2 / valuesSum scores * pool))
        ∧ valuesSum (reward scores pool) = pool) := by
  have hdef : reward scores pool
      = (if valuesSum scores = 0 then scores
         else scores.map (fun p => (p.1, p.2 / valuesSum scores * pool))) := rfl
  constructor
  · intro h
    rw [hdef, if_pos h]
  · intro h
    constructor
    · rw [hdef, if_neg h]
    · rw [hdef, if_neg h]
      show ((scores.map (fun p => (p.1, p.2 / valuesSum scores * pool))).map
        (fun p => p.2)).sum = pool
      rw [List.map_map]
      have hc : ∀ p ∈ scores,
          ((fun (p : String × ℚ) => p.2) ∘
            (fun (p : String × ℚ) => (p.1, p.2 / valuesSum scores * pool))) p
          = (pool / valuesSum scores) * p.2 := by
        intro p _
        show p.2 / valuesSum scores * pool = (pool / valuesSum scores) * p.2
        ring
      rw [List.map_congr_left hc, hp_sum_map_mul_left]
      show pool / valuesSum scores * valuesSum scores = pool
      exact div_mul_cancel₀ pool h

theorem hybrid_C7_reward_witness :
    valuesSum (reward [("a", 2), ("b", 3)] 10) = 10
      ∧ reward [("a", 0), ("b", 0)] 5 = [("a", 0), ("b", 0)] :=
  ⟨((hybrid_C7_reward [("a", 2), ("b", 3)] 10).2 (by norm_num [valuesSum])).2,
   (hybrid_C7_reward [("a", 0), ("b", 0)] 5).1 (by norm_num [valuesSum])⟩

/-- Claim C8: for every graph with at least one node, a successful solver
run returns a record whose values sum to exactly 1 in the exact-arithmetic
model: the run starts from the normalized restart distribution and every
power-iteration pass preserves total rank mass 1. -/
theorem hybrid_C8_mass_conservation (g : WGraph) (o : PageRankOptions)
    (r : Dict)
    (hnd : g.nodes.Nodup)
    (hsrc : ∀ e ∈ g.edges, e.src ∈ g.nodes)
    (hdst : ∀ e ∈ g.edges, e.dst ∈ g.nodes)
    (hne : g.nodes ≠ [])
    (hok : pagerank g o = .ok r) :
    valuesSum r = 1 :=
  pagerank_mass g o r hnd hsrc hdst hne hok

theorem hybrid_C8_pagerank_eval :
    pagerank ⟨["a"], []⟩ {} = .ok [("a", 1)] := by
  show pagerankWithP ⟨["a"], []⟩ {}
    (fun _ => 1 / (((["a"] : List String).length : ℕ) : ℚ)) = .ok [("a", 1)]
  unfold pagerankWithP
  rw [show ({} : PageRankOptions).maxIterations = 100 from rfl,
    pagerankLoop_succ]
  norm_num [pagerankStep, danglingMass, danglingNodes, outDeg, collect]
  simp [Except.map, collect]

theorem hybrid_C8_mass_conservation_witness :
    valuesSum [("a", (1 : ℚ))] = 1 :=
  hybrid_C8_mass_conservation ⟨["a"], []⟩ {} [("a", 1)]
    (by decide) (by decide) (by decide) (by decide) hybrid_C8_pagerank_eval

/-- Claim C10: the solver's behavior depends on an explicit personalization
record only through its values at the graph's node keys (a missing key
reads as 0): two records agreeing there produce identical results,
including the zero-sum error case. -/
theorem hybrid_C10_personalization_restriction (g : WGraph)
    (o : PageRankOptions) (pers1 pers2 : Dict)
    (hsrc : ∀ e ∈ g.edges, e.src ∈ g.nodes)
    (hagree : ∀ k ∈ g.nodes, (dictGet pers1 k).getD 0 = (dictGet pers2 k).getD 0) :
    pagerank g { o with personalization := some pers1 }
      = pagerank g { o with personalization := some pers2 } := by
  unfold pagerank
  by_cases hlen : g.nodes.length = 0
  · rw [if_pos hlen, if_pos hlen]
  · rw [if_neg hlen, if_neg hlen]
    have hs : (g.nodes.map (fun k => (dictGet pers1 k).getD 0)).sum
        = (g.nodes.map (fun k => (dictGet pers2 k).getD 0)).sum :=
      congrArg List.sum (List.map_congr_left hagree)
    show (if (g.nodes.map (fun k => (dictGet pers1 k).getD 0)).sum = 0
        then (.error .zeroPersonalizationSum : Except EvalErr Dict)
        else pagerankWithP g { o with personalization := some pers1 }
          (fun k => (dictGet pers1 k).getD 0
            / (g.nodes.map (fun k => (dictGet pers1 k).getD 0)).sum))
      = (if (g.nodes.map (fun k => (dictGet pers2 k).getD 0)).sum = 0
        then (.error .zeroPersonalizationSum : Except EvalErr Dict)
        else pagerankWithP g { o with personalization := some pers2 }
          (fun k => (dictGet pers2 k).getD 0
            / (g.nodes.map (fun k => (dictGet pers2 k).getD 0)).sum))
    rw [← hs]
    by_cases h0 : (g.nodes.map (fun k => (dictGet pers1 k).getD 0)).sum = 0
    · rw [if_pos h0, if_pos h0]
    · rw [if_neg h0, if_neg h0]
      unfold pagerankWithP
      exact pagerankLoop_congr g o.alpha o.tolerance _ _ hsrc
        (fun v hv => by rw [hagree v hv]) o.maxIterations _ _
        (fun v hv => by rw [hagree v hv])

theorem hybrid_C10_personalization_restriction_witness :
    pagerank ⟨["a"], []⟩ { personalization := some [("a", 1), ("zz", 5)] }
      = pagerank ⟨["a"], []⟩ { personalization := some [("a", 1)] } :=
  hybrid_C10_personalization_restriction ⟨["a"], []⟩ {}
    [("a", 1), ("zz", 5)] [("a", 1)] (by decide) (by norm_num [dictGet])

theorem hp_mem_of_getElem {α : Type} :
    ∀ (l : List α) (i : Nat) (a : α), l[i]? = some a → a ∈ l := by
  intro l
  induction l with
  | nil => intro i a h; simp at h
  | cons b t ih =>
    intro i a h
    cases i with
    | zero =>
      simp at h
      simp [h]
    | succ n =>
      simp at h
      exact List.mem_cons_of_mem _ (ih n a h)

theorem hp_zip_map_self {α β : Type} (l : List α) (f : α → β) :
    l.zip (l.map f) = l.map (fun a => (a, f a)) := by
  induction l with
  | nil => rfl
  | cons a t ih => simp [ih]

theorem hp_accum_lookup_sum (L : List (String × ℚ)) (k : String)
    (hk : ¬ ((L.filter (fun q => decide (q.1 = k))).isEmpty = true)) :
    (dictGet (dictAccum L []) k).getD 0
      = ((L.filter (fun q => decide (q.1 = k))).map (fun q => q.2)).sum := by
  rw [dictAccum_get, if_neg hk]
  simp [dictGet]

/-- The perSourceTypeSum normalizer divides each transformed value by the
accumulated sum of its string bucket  e.from ++ "__" ++ e.type,  plus
epsilon: the denominator groups edges by that concatenated key. -/
theorem perSourceTypeSum_value (cfg : Config) (es : List Edge) (i : Nat)
    (e : Edge)
    (hmode : cfg.normalization.edgeWeight = NormMode.perSourceTypeSum)
    (he : es[i]? = some e) :
    (computeNormalizedEdgeValues cfg es)[i]?
      = some (cfg.normalization.transform (e.weight.getD 1)
          / ((((es.filter (fun x => decide (x.src ++ "__" ++ x.type
                  = e.src ++ "__" ++ e.type))).map
                (fun x => cfg.normalization.transform (x.weight.getD 1))).sum)
              + cfg.normalization.epsilon)) := by
  have hdef1 : computeNormalizedEdgeValues cfg es
      = (es.zip (es.map (fun x => cfg.normalization.transform (x.weight.getD 1)))).map
          (fun p => p.2 /
            ((dictGet (dictAccum
                ((es.zip (es.map (fun x =>
                    cfg.normalization.transform (x.weight.getD 1)))).map
                  (fun p => (p.1.src ++ "__" ++ p.1.type, p.2))) [])
              (p.1.src ++ "__" ++ p.1.type)).getD 0
              + cfg.normalization.epsilon)) := by
    unfold computeNormalizedEdgeValues
    rw [hmode]
  rw [hdef1, hp_zip_map_self]
  rw [List.getElem?_map, List.getElem?_map, he, Option.map_some', Option.map_some']
  show some (cfg.normalization.transform (e.weight.getD 1) /
      ((dictGet (dictAccum
          ((es.map (fun a => (a, cfg.normalization.transform (a.weight.getD 1)))).map
            (fun p => (p.1.src ++ "__" ++ p.1.type, p.2))) [])
        (e.src ++ "__" ++ e.type)).getD 0 + cfg.normalization.epsilon)) = _
  have hL : (es.map (fun a => (a, cfg.normalization.transform (a.weight.getD 1)))).map
      (fun p => (p.1.src ++ "__" ++ p.1.type, p.2))
      = es.map (fun x => (x.src ++ "__" ++ x.type,
          cfg.normalization.transform (x.weight.getD 1))) := by
    rw [List.map_map]
    rfl
  rw [hL]
  have hmem : e ∈ es := hp_mem_of_getElem es i e he
  have hkm : (e.src ++ "__" ++ e.type, cfg.normalization.transform (e.weight.getD 1))
      ∈ (es.map (fun x => (x.src ++ "__" ++ x.type,
          cfg.normalization.transform (x.weight.getD 1)))) :=
    List.mem_map_of_mem _ hmem
  have hne : ¬ ((((es.map (fun x => (x.src ++ "__" ++ x.type,
      cfg.normalization.transform (x.weight.getD 1)))).filter
        (fun q => decide (q.1 = e.src ++ "__" ++ e.type))).isEmpty) = true) := by
    intro hemp
    rw [List.isEmpty_iff] at hemp
    have hmem2 : (e.src ++ "__" ++ e.type,
        cfg.normalization.transform (e.weight.getD 1))
        ∈ ((es.map (fun x => (x.src ++ "__" ++ x.type,
            cfg.normalization.transform (x.weight.getD 1)))).filter
          (fun q => decide (q.1 = e.src ++ "__" ++ e.type))) :=
      List.mem_filter.mpr ⟨hkm, by simp⟩
    rw [hemp] at hmem2
    cases hmem2
  rw [hp_accum_lookup_sum
    (es.map (fun x => (x.src ++ "__" ++ x.type,
      cfg.normalization.transform (x.weight.getD 1))))
    (e.src ++ "__" ++ e.type) hne]
  rw [List.filter_map, List.map_map]
  rfl

/-- Claim C2: in the reverse graph, every input edge whose source node is
not an outcome appears as the reversed arc (e.to -> e.from) with the same
effective weight the forward graph stores for it; an edge whose source node
is an outcome appears unreversed; every input node is a node of the reverse
graph. -/
theorem hybrid_C2_reverse_graph (cfg : Config) (ns : List Node) (es : List Edge)
    (hnd : (ns.map Node.id).Nodup)
    (hep : ∀ e ∈ es, e.src ∈ ns.map Node.id ∧ e.dst ∈ ns.map Node.id) :
    ∃ rg fg,
      buildReverseGraphE cfg ns es (computeNormalizedEdgeValues cfg es) = .ok rg
      ∧ buildGraphE cfg ns es = .ok fg
      ∧ rg.nodes = ns.map Node.id
      ∧ ∀ (i : Nat) (e : Edge), es[i]? = some e →
          ∀ n, nodeMap ns e.src = some n →
          ∃ w, fg.edges[i]? = some ⟨e.src, e.dst, w⟩
            ∧ (n.type ≠ NodeType.outcome → rg.edges[i]? = some ⟨e.dst, e.src, w⟩)
            ∧ (n.type = NodeType.outcome → rg.edges[i]? = some ⟨e.src, e.dst, w⟩) := by
  refine ⟨_, _,
    buildReverseGraphE_ok cfg ns es (computeNormalizedEdgeValues cfg es) hnd hep,
    buildGraphE_ok cfg ns es hnd hep, rfl, ?_⟩
  intro i e he n hn
  refine ⟨effWeight cfg ns (computeNormalizedEdgeValues cfg es) i e, ?_, ?_, ?_⟩
  · simp [he]
  · intro hnt
    simp [he, revSrc, revDst, hn, hnt]
  · intro hyt
    simp [he, revSrc, revDst, hn, hyt]

theorem hybrid_C2_reverse_graph_witness :
    ∃ rg fg,
      buildReverseGraphE cfgPlain nsC2 esC2
          (computeNormalizedEdgeValues cfgPlain esC2) = .ok rg
      ∧ buildGraphE cfgPlain nsC2 esC2 = .ok fg
      ∧ rg.nodes = nsC2.map Node.id
      ∧ ∀ (i : Nat) (e : Edge), esC2[i]? = some e →
          ∀ n, nodeMap nsC2 e.src = some n →
          ∃ w, fg.edges[i]? = some ⟨e.src, e.dst, w⟩
            ∧ (n.type ≠ NodeType.outcome → rg.edges[i]? = some ⟨e.dst, e.src, w⟩)
            ∧ (n.type = NodeType.outcome → rg.edges[i]? = some ⟨e.src, e.dst, w⟩) :=
  hybrid_C2_reverse_graph cfgPlain nsC2 esC2 (by decide) (by decide)

/-- Claim C5 (amended): the weight stored on every forward edge is
  (normalized value) * (confidence ?? 1) * (edge-type multiplier under
  JavaScript ||, so an unspecified or zero multiplier reads as 1)
  * nodeMultiplier(from) * nodeMultiplier(to),
where the node multipliers also read unspecified or zero per-type and
per-id multipliers as 1. -/
theorem hybrid_C5_effective_weight (cfg : Config) (ns : List Node)
    (es : List Edge)
    (hnd : (ns.map Node.id).Nodup)
    (hep : ∀ e ∈ es, e.src ∈ ns.map Node.id ∧ e.dst ∈ ns.map Node.id) :
    ∃ g, buildGraphE cfg ns es = .ok g ∧
      ∀ (i : Nat) (e : Edge), es[i]? = some e →
        g.edges[i]? = some ⟨e.src, e.dst,
          ((computeNormalizedEdgeValues cfg es).get? i).getD (e.weight.getD 1)
            * e.confidence.getD 1
            * jsOrOpt (dictGet cfg.weights.edges e.type) 1
            * nodeMultiplier cfg (nodeMap ns e.src)
            * nodeMultiplier cfg (nodeMap ns e.dst)⟩ := by
  refine ⟨_, buildGraphE_ok cfg ns es hnd hep, ?_⟩
  intro i e he
  simp [he, effWeight]

theorem hybrid_C5_effective_weight_witness :
    ∃ g, buildGraphE cfgC5 nsC5 esC5 = .ok g ∧
      ∀ (i : Nat) (e : Edge), esC5[i]? = some e →
        g.edges[i]? = some ⟨e.src, e.dst,
          ((computeNormalizedEdgeValues cfgC5 esC5).get? i).getD (e.weight.getD 1)
            * e.confidence.getD 1
            * jsOrOpt (dictGet cfgC5.weights.edges e.type) 1
            * nodeMultiplier cfgC5 (nodeMap nsC5 e.src)
            * nodeMultiplier cfgC5 (nodeMap nsC5 e.dst)⟩ :=
  hybrid_C5_effective_weight cfgC5 nsC5 esC5 (by decide) (by decide)

/-- Claim C5 counterexample: with a caller-supplied edge-type multiplier of
exactly 0, the stored weight differs from the spec's formula (the source's
|| 1 turns the 0 into 1). -/
theorem hybrid_C5_zero_multiplier_counterexample :
    builtEdgeWeight (buildGraphE cfgC5 nsC5 esC5) 0
      ≠ some (specEffectiveWeight cfgC5 nsC5
          (computeNormalizedEdgeValues cfgC5 esC5) 0 edgeC5) := by
  rw [buildGraphE_ok cfgC5 nsC5 esC5 (by decide) (by decide)]
  simp [builtEdgeWeight, effWeight, specEffectiveWeight, specNodeMultiplier,
    nodeMultiplier, nodeMap, jsOrOpt, jsOr, dictGet, computeNormalizedEdgeValues,
    cfgC5, nsC5, esC5, edgeC5, List.enum, List.enumFrom]

/-- Claim C4: with an edge whose target id is absent from the node list,
evaluate does not tolerate the edge: graphology's addEdge throws, surfaced
here as the missing-node error (the spec claims such edges are tolerated
silently). -/
theorem hybrid_C4_dangling_reference_error :
    evaluateE cfgPlain [⟨"a", NodeType.agent, none⟩]
      [⟨"a", "missing", "t", none, none⟩] = .error (.missingNode "missing") := rfl

/-- Claim C3 counterexample: the personalization builder accumulates only
the source endpoint's multiplier, so with a target node of multiplier 2 the
accumulated seed differs from the full effective weight of section 3. -/
theorem hybrid_C3_counterexample :
    dictGet (getOutcomePersonalization cfgPlain nsC3 esC3
        (computeNormalizedEdgeValues cfgPlain esC3)) "o"
      ≠ some (effWeight cfgPlain nsC3
          (computeNormalizedEdgeValues cfgPlain esC3) 0 edgeC3) := by
  simp [getOutcomePersonalization, computeNormalizedEdgeValues, effWeight,
    nodeMultiplier, nodeMap, jsOrOpt, jsOr, dictGet, dictSet, cfgPlain, nsC3,
    esC3, edgeC3, List.enum, List.enumFrom]

/-- Claim C3 (amended): when at least one edge has an existing source node
of type outcome, the personalization record maps each id to the sum of the
seed weights of its qualifying edges — the seed weight being the normalized
value times confidence times the edge-type multiplier times the multiplier
of the source endpoint only — and has no other keys. -/
theorem hybrid_C3_personalization (cfg : Config) (ns : List Node)
    (es : List Edge) (nv : List ℚ) (a : String)
    (hq : outcomeSeedPairs cfg ns es nv ≠ []) :
    dictGet (getOutcomePersonalization cfg ns es nv) a
      = (if ((outcomeSeedPairs cfg ns es nv).filter
            (fun q => decide (q.1 = a))).isEmpty
         then none
         else some ((((outcomeSeedPairs cfg ns es nv).filter
             (fun q => decide (q.1 = a))).map (fun q => q.2)).sum)) := by
  rw [getOutcomePersonalization_accum cfg ns es nv hq, dictAccum_get]
  split_ifs with h
  · rfl
  · simp [dictGet]

theorem hybrid_C3_personalization_witness :
    dictGet (getOutcomePersonalization cfgPlain nsC3 esC3
        (computeNormalizedEdgeValues cfgPlain esC3)) "o"
      = (if ((outcomeSeedPairs cfgPlain nsC3 esC3
              (computeNormalizedEdgeValues cfgPlain esC3)).filter
            (fun q => decide (q.1 = "o"))).isEmpty
         then none
         else some ((((outcomeSeedPairs cfgPlain nsC3 esC3
              (computeNormalizedEdgeValues cfgPlain esC3)).filter
             (fun q => decide (q.1 = "o"))).map (fun q => q.2)).sum)) :=
  hybrid_C3_personalization cfgPlain nsC3 esC3
    (computeNormalizedEdgeValues cfgPlain esC3) "o" (by decide)

/-- Claim C9 (amended): under perSourceTypeSum, each normalized value is
the transformed value divided by (bucket sum + epsilon) where buckets group
edges by the string key e.from ++ "__" ++ e.type; whenever that key
separates the (from, type) pairs occurring in the list, the denominator is
the sum over edges sharing the exact pair (e.from, e.type), as the spec
states. -/
theorem hybrid_C9_per_source_type_sum (cfg : Config) (es : List Edge)
    (i : Nat) (e : Edge)
    (hmode : cfg.normalization.edgeWeight = NormMode.perSourceTypeSum)
    (he : es[i]? = some e)
    (hinj : ∀ x ∈ es, (x.src ++ "__" ++ x.type = e.src ++ "__" ++ e.type)
        ↔ (x.src = e.src ∧ x.type = e.type)) :
    (computeNormalizedEdgeValues cfg es)[i]?
      = some (cfg.normalization.transform (e.weight.getD 1)
          / ((((es.filter (fun x => decide (x.src = e.src ∧ x.type = e.type))).map
              (fun x => cfg.normalization.transform (x.weight.getD 1))).sum)
            + cfg.normalization.epsilon)) := by
  rw [perSourceTypeSum_value cfg es i e hmode he]
  have hfe : es.filter
      (fun x => decide (x.src ++ "__" ++ x.type = e.src ++ "__" ++ e.type))
      = es.filter (fun x => decide (x.src = e.src ∧ x.type = e.type)) := by
    apply List.filter_congr
    intro x hx
    exact decide_eq_decide.mpr (hinj x hx)
  rw [hfe]

theorem hybrid_C9_per_source_type_sum_witness :
    (computeNormalizedEdgeValues cfgC9 esC9w)[0]?
      = some (cfgC9.normalization.transform (edgeC9w.weight.getD 1)
          / ((((esC9w.filter (fun x => decide (x.src = edgeC9w.src
                ∧ x.type = edgeC9w.type))).map
              (fun x => cfgC9.normalization.transform (x.weight.getD 1))).sum)
            + cfgC9.normalization.epsilon)) :=
  hybrid_C9_per_source_type_sum cfgC9 esC9w 0 edgeC9w rfl rfl (by decide)

/-- Claim C9 counterexample: with the colliding keys of esC9, the
normalized value of the first edge is not the value the claim's
exact-pair denominator gives. -/
theorem hybrid_C9_key_collision_counterexample :
    (computeNormalizedEdgeValues cfgC9 esC9)[0]?
      ≠ some (cfgC9.normalization.transform
            ((⟨"a__b", "x", "c", some 1, none⟩ : Edge).weight.getD 1)
          / ((((esC9.filter (fun x => decide (x.src = "a__b" ∧ x.type = "c"))).map
              (fun x => cfgC9.normalization.transform (x.weight.getD 1))).sum)
            + cfgC9.normalization.epsilon)) := by
  rw [perSourceTypeSum_value cfgC9 esC9 0 ⟨"a__b", "x", "c", some 1, none⟩ rfl rfl]
  simp [cfgC9, esC9]
